import Mathlib

/-!
Verification of the overstory agent-orchestration core against its
natural-language specification.

Each definition below is a shallow embedding of the corresponding TypeScript
function.  Functions whose implementation files are present under `src/`
(`src/worktree/zellij.ts`, the multiplexer/manifest module) are translated
directly from that source; subsystems whose implementation files are absent
from the source tree (mail, events, sessions, merge queue, watchdog health)
are modelled from the specification text, as flagged in their doc comments.
Effectful code (process signalling, zellij subprocesses, SQLite stores) is
embedded as explicit state passing or as traces of observable actions.
-/

namespace Overstory

/-- Agent lifecycle state, from `src/types.ts` (`AgentState`). -/
inductive AgentState
  | booting
  | working
  | completed
  | stalled
  | zombie
  deriving DecidableEq, Repr

namespace Health

/-- Health status reported by the evaluator, from `src/types.ts` (`HealthCheck.status`). -/
inductive HealthStatus
  | healthy
  | stale
  | zombie
  deriving DecidableEq, Repr

/-- Suggested action reported by the evaluator, from `src/types.ts`
(`HealthCheck.suggestedAction`). -/
inductive SuggestedAction
  | none
  | nudge
  | escalate
  | terminate
  deriving DecidableEq, Repr

/-- The fields of an `AgentSession` consulted by the health evaluator.
Timestamps are milliseconds since the epoch. -/
structure HealthSession where
  agentName : String
  state : AgentState
  lastActivity : Nat
  escalationLevel : Nat
  deriving DecidableEq, Repr

/-- Health evaluation result; the free-form `reason` string and `checkedAt`
timestamp of the source record are omitted (no claim mentions them). -/
structure HealthCheck where
  status : HealthStatus
  suggestedAction : SuggestedAction
  deriving DecidableEq, Repr

/-- Modelled from the spec: `evaluateHealth(session, isAlive)` of the missing
`src/watchdog/health.ts`.  Rules are evaluated in order, first match wins:
1. `!is_alive` → zombie / terminate;
2. `state = completed` → healthy / none;
3. `now − last_activity > stall_threshold` and `escalation_level = 0` → stale / nudge;
4. stale and `escalation_level ∈ {1, 2}` → stale / escalate;
5. `escalation_level ≥ 3` → zombie / terminate;
6. otherwise healthy / none. -/
def evaluateHealth (session : HealthSession) (isAlive : Bool)
    (now stallThreshold : Nat) : HealthCheck :=
  if !isAlive then
    { status := .zombie, suggestedAction := .terminate }
  else if session.state = .completed then
    { status := .healthy, suggestedAction := .none }
  else if now - session.lastActivity > stallThreshold ∧ session.escalationLevel = 0 then
    { status := .stale, suggestedAction := .nudge }
  else if now - session.lastActivity > stallThreshold ∧
      (session.escalationLevel = 1 ∨ session.escalationLevel = 2) then
    { status := .stale, suggestedAction := .escalate }
  else if session.escalationLevel ≥ 3 then
    { status := .zombie, suggestedAction := .terminate }
  else
    { status := .healthy, suggestedAction := .none }

end Health

namespace Zellij

/-- POSIX signals used by the process-tree killer. -/
inductive Signal
  | SIGTERM
  | SIGKILL
  deriving DecidableEq, Repr

/-- Observable action performed by `killProcessTree`. -/
inductive KillAction
  | signal (pid : Nat) (sig : Signal)
  | sleep (ms : Nat)
  deriving DecidableEq, Repr

/-- Embedding of `getDescendantPids` (`src/worktree/zellij.ts:244-267`).
The `pgrep -P pid` call is abstracted as `children pid`.  The source recursion
terminates because real process trees are finite; here the recursion is
fuelled.  For each direct child, that child's own descendants are collected
first, and all direct children are appended at the end. -/
def getDescendantPids (children : Nat → List Nat) : Nat → Nat → List Nat
  | 0, _ => []
  | fuel + 1, pid =>
    ((children pid).map (getDescendantPids children fuel)).flatten ++ children pid

/-- Embedding of `sendSignal` (`src/worktree/zellij.ts:315-321`): the signal
attempt is recorded as an observable action; the source swallows failures, so
there is no error case. -/
def sendSignal (pid : Nat) (sig : Signal) : List KillAction :=
  [KillAction.signal pid sig]

/-- Default grace period (`KILL_GRACE_PERIOD_MS`, `src/worktree/zellij.ts:281`). -/
def KILL_GRACE_PERIOD_MS : Nat := 2000

/-- Embedding of `killProcessTree` (`src/worktree/zellij.ts:287-313`) as the
trace of signal/sleep actions it performs.  `aliveAfterGrace pid` abstracts
the `isProcessAlive` probe made after the grace sleep. -/
def killProcessTree (children : Nat → List Nat) (aliveAfterGrace : Nat → Bool)
    (fuel rootPid gracePeriodMs : Nat) : List KillAction :=
  let descendants := getDescendantPids children fuel rootPid
  if descendants.length = 0 then
    sendSignal rootPid .SIGTERM
  else
    (descendants.map fun pid => sendSignal pid .SIGTERM).flatten
      ++ sendSignal rootPid .SIGTERM
      ++ [KillAction.sleep gracePeriodMs]
      ++ (descendants.map fun pid =>
            if aliveAfterGrace pid then sendSignal pid .SIGKILL else []).flatten
      ++ (if aliveAfterGrace rootPid then sendSignal rootPid .SIGKILL else [])

/-- Observable zellij write command issued by `sendKeys`. -/
inductive SendAction
  | writeChars (text : String)
  | write (byte : Nat)
  deriving DecidableEq, Repr

/-- Error thrown by `sendKeys` (all are `AgentError` in the source). -/
inductive SendError
  | paneNotAlive
  | writeCharsFailed
  | enterFailed
  deriving DecidableEq, Repr

/-- Embedding of the newline flattening in `sendKeys`
(`src/worktree/zellij.ts:502`): `keys.replace(/\n/g, " ")` replaces each
newline character with a space. -/
def flattenNewlines (s : String) : String :=
  String.mk (s.data.map fun c => if c = '\n' then ' ' else c)

/-- Embedding of `sendKeys` (`src/worktree/zellij.ts:491-538`).  The
`isSessionAlive` probe and the exit codes of the two zellij subprocesses
(`action write-chars`, `action write 13`) are abstracted as booleans.  The
result pairs the thrown error (if any) with the trace of zellij write
commands issued; a command that exits non-zero was still issued, so it
appears in the trace before the corresponding error. -/
def sendKeys (alive writeCharsOk enterOk : Bool) (keys : String) :
    Option SendError × List SendAction :=
  if !alive then
    (some .paneNotAlive, [])
  else
    let flatKeys := flattenNewlines keys
    if flatKeys.length > 0 then
      if !writeCharsOk then
        (some .writeCharsFailed, [SendAction.writeChars flatKeys])
      else if !enterOk then
        (some .enterFailed, [SendAction.writeChars flatKeys, SendAction.write 13])
      else
        (none, [SendAction.writeChars flatKeys, SendAction.write 13])
    else if !enterOk then
      (some .enterFailed, [SendAction.write 13])
    else
      (none, [SendAction.write 13])

end Zellij

namespace Manifest

/-- Parsed frontmatter of a user agent definition file, from the multiplexer /
manifest module (`UserAgentFrontmatter`).  All fields are optional; `tags` is
declared in the interface but never produced by the parser. -/
structure UserAgentFrontmatter where
  name : Option String
  description : Option String
  model : Option String
  color : Option String
  tags : Option (List String)
  deriving DecidableEq, Repr

/-- Frontmatter with no field set (the TS object literal `{}`). -/
def emptyFrontmatter : UserAgentFrontmatter :=
  { name := none, description := none, model := none, color := none, tags := none }

/-- Embedding of JavaScript `String.prototype.startsWith` on char lists. -/
def isPrefixL : List Char → List Char → Bool
  | [], _ => true
  | _ :: _, [] => false
  | p :: ps, c :: cs => p = c && isPrefixL ps cs

/-- Embedding of JavaScript `String.prototype.indexOf(pat)`: index of the
first occurrence of `pat`, or `none` (JS `-1`). -/
def findSub (pat : List Char) : List Char → Option Nat
  | [] => if isPrefixL pat [] then some 0 else none
  | c :: rest =>
    if isPrefixL pat (c :: rest) then some 0
    else (findSub pat rest).map (· + 1)

/-- Embedding of JavaScript `trimStart` on char lists (whitespace prefix removal). -/
def trimStartL (l : List Char) : List Char :=
  l.dropWhile Char.isWhitespace

/-- Embedding of JavaScript `trim` on char lists (whitespace on both ends). -/
def trimL (l : List Char) : List Char :=
  ((l.dropWhile Char.isWhitespace).reverse.dropWhile Char.isWhitespace).reverse

/-- Embedding of JavaScript `split("\n")`. -/
def splitLines : List Char → List (List Char)
  | [] => [[]]
  | c :: rest =>
    if c = '\n' then [] :: splitLines rest
    else
      match splitLines rest with
      | [] => [[c]]
      | line :: more => (c :: line) :: more

/-- Embedding of one iteration of the frontmatter key/value loop
(`parseAgentFrontmatter`, multiplexer/manifest module, lines 535-564): find
the first colon (skip the line if absent), trim key and value, strip one pair
of surrounding quotes, and dispatch on the keys `name`, `model`, `color`,
`description`; every other key (including `tags`) is ignored. -/
def processLine (fm : UserAgentFrontmatter) (line : List Char) : UserAgentFrontmatter :=
  match findSub [':'] line with
  | Option.none => fm
  | some colonIdx =>
    let key := trimL (line.take colonIdx)
    let rawValue := trimL (line.drop (colonIdx + 1))
    let value :=
      if (isPrefixL ['"'] rawValue && isPrefixL ['"'] rawValue.reverse) ||
          (isPrefixL ['\''] rawValue && isPrefixL ['\''] rawValue.reverse) then
        (rawValue.drop 1).dropLast
      else rawValue
    if key = "name".data then { fm with name := some (String.mk value) }
    else if key = "model".data then { fm with model := some (String.mk value) }
    else if key = "color".data then { fm with color := some (String.mk value) }
    else if key = "description".data then { fm with description := some (String.mk value) }
    else fm

/-- Embedding of `parseAgentFrontmatter` (multiplexer/manifest module, lines
516-567): strip leading whitespace; if the result does not start with `---`,
or no closing `---` is found from index 3 on, return empty frontmatter and
the original content; otherwise parse the block between the delimiters line
by line and return the remainder (with leading whitespace stripped) as body. -/
def parseAgentFrontmatter (content : String) : UserAgentFrontmatter × String :=
  let trimmed := trimStartL content.data
  if ¬ (isPrefixL "---".data trimmed = true) then
    (emptyFrontmatter, content)
  else
    match (findSub "---".data (trimmed.drop 3)).map (· + 3) with
    | Option.none => (emptyFrontmatter, content)
    | some endIdx =>
      let fmBlock := trimL ((trimmed.take endIdx).drop 3)
      let body := trimStartL (trimmed.drop (endIdx + 3))
      ((splitLines fmBlock).foldl processLine emptyFrontmatter, String.mk body)

end Manifest

/-- Agent capability tag, from `src/types.ts` (spec §3). -/
inductive Capability
  | coordinator
  | supervisor
  | lead
  | builder
  | scout
  | reviewer
  | merger
  | monitor
  deriving DecidableEq, Repr

namespace Mail

/-- The fields of an active session consulted by group address resolution. -/
structure ActiveAgent where
  agentName : String
  capability : Capability
  deriving DecidableEq, Repr

/-- A stored mail message.  Modelled from the spec: the source's random
16-character string ids are abstracted as `Nat`; the `type`, `priority` and
`payload` columns are omitted (no claim mentions them).  The TS fields `from`
and `to` are Lean keywords and appear here as `sender` and `recipient`. -/
structure MailMessage where
  id : Nat
  sender : String
  recipient : String
  subject : String
  body : String
  threadId : Option Nat
  read : Bool
  createdAt : Nat
  deriving DecidableEq, Repr

/-- Modelled from the spec: the capability selected by each supported group
address of the missing `src/mail/broadcast.ts` (`@builders`, `@scouts`,
`@reviewers`, `@mergers`, `@leads`). -/
def capabilityOfGroup (group : String) : Option Capability :=
  if group = "@builders" then some .builder
  else if group = "@scouts" then some .scout
  else if group = "@reviewers" then some .reviewer
  else if group = "@mergers" then some .merger
  else if group = "@leads" then some .lead
  else none

/-- Modelled from the spec: `resolveGroupAddress(groupAddress, activeSessions,
senderName)` of the missing `src/mail/broadcast.ts`: `@all` resolves to every
active agent name other than the sender; a capability group resolves to the
active agents of that capability, sender excluded; anything else resolves to
no recipients. -/
def resolveGroupAddress (group : String) (active : List ActiveAgent)
    (sender : String) : List String :=
  if group = "@all" then
    (active.filter fun a => decide (a.agentName ≠ sender)).map fun a => a.agentName
  else
    match capabilityOfGroup group with
    | some cap =>
      (active.filter fun a =>
        decide (a.capability = cap ∧ a.agentName ≠ sender)).map fun a => a.agentName
    | none => []

/-- Modelled from the spec: the per-recipient insertion loop of a group send
in the missing `src/mail/client.ts`; one row per recipient, ids auto-generated
(the source's random-id generator is abstracted as a counter). -/
def insertRows (nextId now : Nat) (sender subject body : String)
    (threadId : Option Nat) : List String → List MailMessage
  | [] => []
  | r :: rest =>
    { id := nextId, sender := sender, recipient := r, subject := subject,
      body := body, threadId := threadId, read := false, createdAt := now } ::
      insertRows (nextId + 1) now sender subject body threadId rest

/-- Modelled from the spec: sending to a group address in the missing
`src/mail/client.ts`: recipients are resolved before insertion, one message
row is appended per recipient (fan-out at send time), and the list of new ids
is returned; an empty resolution inserts nothing and returns the empty list. -/
def sendGroup (store : List MailMessage) (nextId : Nat)
    (sender group subject body : String) (threadId : Option Nat)
    (active : List ActiveAgent) (now : Nat) : List Nat × List MailMessage :=
  let recipients := resolveGroupAddress group active sender
  let rows := insertRows nextId now sender subject body threadId recipients
  (rows.map fun m => m.id, store ++ rows)

/-- Modelled from the spec: `MailStore.getById(id)` of the missing
`src/mail/store.ts`. -/
def getById (store : List MailMessage) (id : Nat) : Option MailMessage :=
  store.find? fun m => decide (m.id = id)

/-- Modelled from the spec: `reply(messageId, body, from)` of the missing
`src/mail/client.ts`: looks up the original message, inherits its `thread_id`
when set (otherwise uses the original's id), and addresses the reply to the
original sender.  Returns the new id and store, or `none` when the original
does not exist; the reply's subject is not specified by the spec and is
modelled as the original's subject. -/
def reply (store : List MailMessage) (nextId messageId : Nat)
    (body sender : String) (now : Nat) : Option (Nat × List MailMessage) :=
  match getById store messageId with
  | Option.none => none
  | some original =>
    let threadId :=
      match original.threadId with
      | some t => some t
      | Option.none => some original.id
    let row : MailMessage :=
      { id := nextId, sender := sender, recipient := original.sender,
        subject := original.subject, body := body, threadId := threadId,
        read := false, createdAt := now }
    some (nextId, store ++ [row])

end Mail

namespace Events

/-- Event kind, from `src/types.ts` (`StoredEvent.eventType`). -/
inductive EventKind
  | toolStart
  | toolEnd
  | sessionStart
  | sessionEnd
  | mailSent
  | mailReceived
  | error
  | custom
  deriving DecidableEq, Repr

/-- A stored event.  Modelled from the spec: the columns not consulted by
tool correlation (`run_id`, `session_id`, `tool_args`, `level`, `data`) are
omitted.  `createdAt` is milliseconds since the epoch. -/
structure StoredEvent where
  id : Nat
  agentName : String
  eventKind : EventKind
  toolName : Option String
  toolDurationMs : Option Int
  createdAt : Nat
  deriving DecidableEq, Repr

/-- Modelled from the spec: the correlation candidate filter of
`correlate_tool_end(agent_name, tool_name)` — a `tool_start` row for the same
agent and tool whose `tool_duration_ms` is null. -/
def isCandidate (a t : String) (e : StoredEvent) : Bool :=
  decide (e.eventKind = EventKind.toolStart ∧ e.agentName = a ∧
    e.toolName = some t ∧ e.toolDurationMs = none)

/-- One step of the most-recent scan: keep whichever row has the larger id. -/
def pickLater (acc : Option StoredEvent) (e : StoredEvent) : Option StoredEvent :=
  match acc with
  | Option.none => some e
  | some b => if b.id < e.id then some e else some b

/-- Modelled from the spec: the most recent candidate row.  The event log is
append-only with an auto-increment id, so "most recent" is the candidate with
the largest id. -/
def bestCandidate (events : List StoredEvent) (a t : String) : Option StoredEvent :=
  (events.filter (isCandidate a t)).foldl pickLater none

/-- Modelled from the spec: `correlate_tool_end(agent_name, tool_name)` of the
missing `src/events/store.ts`: finds the most recent uncorrelated `tool_start`
row for the pair, computes `now − createdAt` in milliseconds, back-fills that
row's duration, and returns the start id and the duration; with no candidate
it returns none and leaves the log unchanged. -/
def correlateToolEnd (events : List StoredEvent) (a t : String) (now : Nat) :
    Option (Nat × Int) × List StoredEvent :=
  match bestCandidate events a t with
  | Option.none => (none, events)
  | some row =>
    let dur : Int := (now : Int) - (row.createdAt : Int)
    (some (row.id, dur),
      events.map fun e =>
        if e.id = row.id then { e with toolDurationMs := some dur } else e)

end Events

namespace Sessions

/-- A stored agent session.  Modelled from the spec: only the columns the
claims are about are retained (name, state, escalation level, stalled-since). -/
structure AgentSession where
  agentName : String
  state : AgentState
  escalationLevel : Nat
  stalledSince : Option Nat
  deriving DecidableEq, Repr

/-- Typed errors raised by the session store (the source's `LifecycleError` /
`ValidationError` kinds). -/
inductive SessionError
  | illegalTransition (fromState toState : AgentState)
  | notFound (name : String)
  | escalationDecrease (current requested : Nat)
  deriving DecidableEq, Repr

/-- Modelled from the spec: the forward-only transition relation of §4.1 and
invariant (I2): `booting → working`, `working → {completed, stalled}`,
`stalled → {working, zombie}`; `completed` and `zombie` are terminal. -/
def transitionAllowed : AgentState → AgentState → Bool
  | .booting, .working => true
  | .working, .completed => true
  | .working, .stalled => true
  | .stalled, .working => true
  | .stalled, .zombie => true
  | _, _ => false

/-- Modelled from the spec: `SessionStore` row lookup by agent name. -/
def lookupSession (store : List AgentSession) (name : String) : Option AgentSession :=
  store.find? fun s => decide (s.agentName = name)

/-- Modelled from the spec: `update_state(name, new_state)` of the missing
`src/sessions/store.ts`: applies the forward-only transition rule; an illegal
transition is rejected with a typed error and the store is left unchanged.
(The `stalled_since` coherence bookkeeping of invariant (I4) is not modelled;
no claim mentions it.) -/
def updateState (store : List AgentSession) (name : String)
    (newState : AgentState) : Option SessionError × List AgentSession :=
  match lookupSession store name with
  | Option.none => (some (.notFound name), store)
  | some s =>
    if transitionAllowed s.state newState then
      (none, store.map fun r =>
        if r.agentName = name then { r with state := newState } else r)
    else
      (some (.illegalTransition s.state newState), store)

/-- Modelled from the spec: `update_escalation(name, level, stalled_since)` of
the missing `src/sessions/store.ts` — rejects level decreases with a typed
error, otherwise writes the new level and stalled-since. -/
def updateEscalation (store : List AgentSession) (name : String) (level : Nat)
    (stalledSince : Option Nat) : Option SessionError × List AgentSession :=
  match lookupSession store name with
  | Option.none => (some (.notFound name), store)
  | some s =>
    if level < s.escalationLevel then
      (some (.escalationDecrease s.escalationLevel level), store)
    else
      (none, store.map fun r =>
        if r.agentName = name then
          { r with escalationLevel := level, stalledSince := stalledSince }
        else r)

/-- Modelled from the spec: `upsert(session)` of the missing
`src/sessions/store.ts` — insert or replace by `agent_name`; per §4.1 the
store writes `escalation_level` as given (monotonicity is enforced at the
caller, not here). -/
def upsert (store : List AgentSession) (s : AgentSession) : List AgentSession :=
  if store.any fun r => decide (r.agentName = s.agentName) then
    store.map fun r => if r.agentName = s.agentName then s else r
  else
    store ++ [s]

/-- Modelled from the spec: `remove(name)` of the missing
`src/sessions/store.ts`. -/
def removeSession (store : List AgentSession) (name : String) : List AgentSession :=
  store.filter fun s => decide (s.agentName ≠ name)

/-- A mutating session-store operation (the mutators of spec §4.1). -/
inductive SessionOp
  | upsertOp (session : AgentSession)
  | updateStateOp (name : String) (newState : AgentState)
  | updateEscalationOp (name : String) (level : Nat) (stalledSince : Option Nat)
  | removeOp (name : String)
  deriving DecidableEq, Repr

/-- Modelled from the spec: the effect of one store operation on the stored
rows (a rejected operation leaves the store unchanged). -/
def applyOp (op : SessionOp) (store : List AgentSession) : List AgentSession :=
  match op with
  | .upsertOp s => upsert store s
  | .updateStateOp name newState => (updateState store name newState).2
  | .updateEscalationOp name level ss => (updateEscalation store name level ss).2
  | .removeOp name => removeSession store name

end Sessions

namespace MergeQ

/-- Merge entry status, from `src/types.ts` (`MergeEntry.status`). -/
inductive MergeStatus
  | pending
  | merging
  | merged
  | conflict
  | failed
  deriving DecidableEq, Repr

/-- A merge-queue row.  Modelled from the spec: `insertId` is the SQLite
auto-increment rowid; the task/agent/file columns are omitted (no claim
mentions them). -/
structure MergeEntry where
  insertId : Nat
  branchName : String
  enqueuedAt : Nat
  status : MergeStatus
  deriving DecidableEq, Repr

/-- Modelled from the spec: the next auto-increment insert id. -/
def nextInsertId (q : List MergeEntry) : Nat :=
  (q.map fun e => e.insertId).foldl max 0 + 1

/-- Modelled from the spec: `MergeQueue.enqueue(entry)` of the missing
`src/merge/queue.ts` — appends a `pending` row with a fresh auto-increment
insert id and the current timestamp. -/
def enqueue (q : List MergeEntry) (branch : String) (now : Nat) : List MergeEntry :=
  q ++ [{ insertId := nextInsertId q, branchName := branch, enqueuedAt := now,
          status := .pending }]

/-- One step of the FIFO-head scan: keep whichever row has the smaller
insert id. -/
def pickEarlier (acc : Option MergeEntry) (e : MergeEntry) : Option MergeEntry :=
  match acc with
  | Option.none => some e
  | some b => if e.insertId < b.insertId then some e else some b

/-- Modelled from the spec: the `pending` row with the smallest insert id
(the SQL `WHERE status = 'pending' ORDER BY id ASC LIMIT 1`). -/
def minPending (q : List MergeEntry) : Option MergeEntry :=
  (q.filter fun e => decide (e.status = .pending)).foldl pickEarlier none

/-- Modelled from the spec: `MergeQueue.dequeue()` of the missing
`src/merge/queue.ts` — removes and returns the pending entry with the
smallest auto-increment insert id, ignoring non-pending entries; on an empty
pending set it returns none and leaves the queue unchanged. -/
def dequeue (q : List MergeEntry) : Option MergeEntry × List MergeEntry :=
  match minPending q with
  | Option.none => (none, q)
  | some e => (some e, q.filter fun r => decide (r.insertId ≠ e.insertId))

/-- Iterated dequeue (fuelled by the queue length): the order in which the
resolver consumes the queue. -/
def dequeueAll : Nat → List MergeEntry → List MergeEntry
  | 0, _ => []
  | fuel + 1, q =>
    match dequeue q with
    | (Option.none, _) => []
    | (some e, rest) => e :: dequeueAll fuel rest

/-- Timestamp reassignment: used to state that dequeue order does not depend
on `enqueuedAt`. -/
def retime (f : Nat → Nat) (e : MergeEntry) : MergeEntry :=
  { e with enqueuedAt := f e.enqueuedAt }

end MergeQ

/-! Statement forms for the claims.  Each is a conjunction of the properties
the corresponding spec claim asserts about the embedded definitions. -/

open Zellij in
/-- C1 statement (as amended): when the root has descendants, the kill trace
is SIGTERM to every descendant (each pid only after all of its own
descendants), then SIGTERM to the root, a grace sleep, then SIGKILL to every
still-alive descendant and to the root if still alive; when the root has no
descendants the trace is a single SIGTERM to the root, with no grace wait and
no SIGKILL.  The grace period defaults to 2000 ms. -/
def KillTreeSpecProp (children : Nat → List Nat) (alive : Nat → Bool)
    (fuel rootPid grace : Nat) : Prop :=
  (getDescendantPids children fuel rootPid = [] →
    killProcessTree children alive fuel rootPid grace =
      [KillAction.signal rootPid Signal.SIGTERM]) ∧
  (getDescendantPids children fuel rootPid ≠ [] →
    killProcessTree children alive fuel rootPid grace =
      (getDescendantPids children fuel rootPid).map
          (fun p => KillAction.signal p Signal.SIGTERM)
        ++ [KillAction.signal rootPid Signal.SIGTERM, KillAction.sleep grace]
        ++ ((getDescendantPids children fuel rootPid).filter alive).map
            (fun p => KillAction.signal p Signal.SIGKILL)
        ++ (if alive rootPid then [KillAction.signal rootPid Signal.SIGKILL] else [])) ∧
  (∀ f p, ∃ pre, getDescendantPids children (f + 1) p = pre ++ children p ∧
    ∀ c ∈ children p, getDescendantPids children f c ⊆ pre) ∧
  KILL_GRACE_PERIOD_MS = 2000

open Zellij in
/-- C9 statement: a dead pane raises an error with nothing written; otherwise
the text is written with every newline flattened to a space (all other
characters unchanged), the character write is skipped exactly when the
flattened text is empty, and the Enter byte 13 is written as a separate
command afterwards. -/
def SendKeysSpecProp (writeCharsOk enterOk : Bool) (keys : String) : Prop :=
  sendKeys false writeCharsOk enterOk keys = (some SendError.paneNotAlive, []) ∧
  (flattenNewlines keys).length = keys.length ∧
  (∀ i : Nat, (flattenNewlines keys).data[i]? =
    (keys.data[i]?).map fun c => if c = '\n' then ' ' else c) ∧
  (∀ c ∈ (flattenNewlines keys).data, c ≠ '\n') ∧
  ((flattenNewlines keys).length = 0 →
    sendKeys true writeCharsOk enterOk keys =
      ((if enterOk then none else some SendError.enterFailed), [SendAction.write 13])) ∧
  (0 < (flattenNewlines keys).length → writeCharsOk = true →
    (sendKeys true writeCharsOk enterOk keys).2 =
      [SendAction.writeChars (flattenNewlines keys), SendAction.write 13])

open Manifest in
/-- C10 statement: without an opening `---` (after leading whitespace) or
without a closing `---`, the parser returns empty frontmatter and the
original content unchanged; and no input ever produces a `tags` field. -/
def FrontmatterSpecProp (content : String) : Prop :=
  (isPrefixL ("---".data) (trimStartL content.data) = false →
    parseAgentFrontmatter content = (emptyFrontmatter, content)) ∧
  (findSub ("---".data) ((trimStartL content.data).drop 3) = none →
    parseAgentFrontmatter content = (emptyFrontmatter, content)) ∧
  (parseAgentFrontmatter content).1.tags = none

open Events in
/-- C3 statement (as amended): with no uncorrelated `tool_start` row for the
pair the call returns none and leaves the log unchanged; otherwise it returns
the id of the candidate row with the largest id together with
`now − createdAt`, back-fills exactly that row's duration (a value ≥ 0
whenever the row was created no later than `now`), and a second call returns
none provided the consumed row was the only candidate. -/
def CorrelateSpecProp (events : List StoredEvent) (a t : String) (now : Nat) : Prop :=
  ((∀ e ∈ events, isCandidate a t e = false) →
    correlateToolEnd events a t now = (none, events)) ∧
  (∀ row, bestCandidate events a t = some row →
    row ∈ events ∧ isCandidate a t row = true ∧
    (∀ e ∈ events, isCandidate a t e = true → e.id ≤ row.id) ∧
    (correlateToolEnd events a t now).1 =
      some (row.id, (now : Int) - (row.createdAt : Int)) ∧
    (correlateToolEnd events a t now).2 = events.map (fun e =>
      if e.id = row.id then
        { e with toolDurationMs := some ((now : Int) - (row.createdAt : Int)) }
      else e) ∧
    (row.createdAt ≤ now → 0 ≤ (now : Int) - (row.createdAt : Int))) ∧
  (∀ id dur, (correlateToolEnd events a t now).1 = some (id, dur) →
    (∀ e ∈ events, isCandidate a t e = true → e.id = id) →
    ∀ now2, (correlateToolEnd (correlateToolEnd events a t now).2 a t now2).1 = none)

open Mail in
/-- C4 statement: group sends resolve recipients before insertion (`@all` to
every active non-sender, capability groups to the matching active agents,
sender excluded), append exactly one row per recipient, all rows sharing
body, subject and thread id with pairwise-distinct ids, and an empty
resolution inserts nothing and returns the empty id list. -/
def GroupSendSpecProp (store : List MailMessage) (nextId : Nat)
    (sender group subject body : String) (threadId : Option Nat)
    (active : List ActiveAgent) (now : Nat) : Prop :=
  (resolveGroupAddress "@all" active sender =
    (active.filter fun a => decide (a.agentName ≠ sender)).map fun a => a.agentName) ∧
  (∀ g cap, capabilityOfGroup g = some cap →
    resolveGroupAddress g active sender =
      (active.filter fun a => decide (a.capability = cap ∧ a.agentName ≠ sender)).map
        fun a => a.agentName) ∧
  (sendGroup store nextId sender group subject body threadId active now).1.length =
    (resolveGroupAddress group active sender).length ∧
  (sendGroup store nextId sender group subject body threadId active now).2 =
    store ++ insertRows nextId now sender subject body threadId
      (resolveGroupAddress group active sender) ∧
  (∀ m ∈ insertRows nextId now sender subject body threadId
      (resolveGroupAddress group active sender),
    m.body = body ∧ m.subject = subject ∧ m.threadId = threadId ∧ m.sender = sender) ∧
  (insertRows nextId now sender subject body threadId
      (resolveGroupAddress group active sender)).map (fun m => m.recipient) =
    resolveGroupAddress group active sender ∧
  (sendGroup store nextId sender group subject body threadId active now).1.Nodup ∧
  (resolveGroupAddress group active sender = [] →
    (sendGroup store nextId sender group subject body threadId active now).1 = [] ∧
    (sendGroup store nextId sender group subject body threadId active now).2 = store)

open Sessions in
/-- C5 statement: the transitions accepted by the store are exactly the five
pairs of the forward-only DAG (so `completed` and `zombie` have no outgoing
transitions), a legal transition updates the stored state, and an illegal one
is rejected with a typed error while the store is unchanged. -/
def UpdateStateSpecProp (store : List AgentSession) (name : String)
    (newState : AgentState) : Prop :=
  (∀ a b, transitionAllowed a b = true ↔
    ((a = .booting ∧ b = .working) ∨ (a = .working ∧ b = .completed) ∨
      (a = .working ∧ b = .stalled) ∨ (a = .stalled ∧ b = .working) ∨
      (a = .stalled ∧ b = .zombie))) ∧
  (∀ b, transitionAllowed .completed b = false ∧ transitionAllowed .zombie b = false) ∧
  (∀ s, lookupSession store name = some s →
    (transitionAllowed s.state newState = false →
      updateState store name newState =
        (some (SessionError.illegalTransition s.state newState), store)) ∧
    (transitionAllowed s.state newState = true →
      (updateState store name newState).1 = none ∧
      lookupSession (updateState store name newState).2 name =
        some { s with state := newState }))

open Sessions in
/-- C8 statement (as amended): `update_escalation` rejects a level lower than
the stored one with a typed error and an unchanged store, and the level it
stores never decreases; monotonicity across `upsert` is the caller's
responsibility (the store writes the field as given). -/
def EscalationMonotoneProp (store : List AgentSession) (name : String)
    (level : Nat) (stalledSince : Option Nat) : Prop :=
  (∀ s, lookupSession store name = some s → level < s.escalationLevel →
    updateEscalation store name level stalledSince =
      (some (SessionError.escalationDecrease s.escalationLevel level), store)) ∧
  (∀ s sAfter, lookupSession store name = some s →
    lookupSession (updateEscalation store name level stalledSince).2 name = some sAfter →
    s.escalationLevel ≤ sAfter.escalationLevel)

open MergeQ in
/-- C6 statement: dequeue removes and returns the pending entry with the
smallest insert id (ignoring non-pending rows), returns none exactly on an
empty pending set, consumes the whole queue in insertion order restricted to
pending entries (insert ids increase in insertion order, and enqueue
preserves that), and its choice is independent of the `enqueuedAt`
timestamps. -/
def DequeueFifoProp (q : List MergeEntry) : Prop :=
  (∀ e, (dequeue q).1 = some e →
    e ∈ q ∧ e.status = .pending ∧
    (∀ r ∈ q, r.status = .pending → e.insertId ≤ r.insertId) ∧
    (dequeue q).2 = q.filter fun r => decide (r.insertId ≠ e.insertId)) ∧
  ((dequeue q).1 = none → (∀ r ∈ q, r.status ≠ .pending) ∧ (dequeue q).2 = q) ∧
  (q.Pairwise (fun a b => a.insertId < b.insertId) →
    dequeueAll q.length q = q.filter fun r => decide (r.status = .pending)) ∧
  (∀ f, ((dequeue (q.map (retime f))).1).map (fun e => e.insertId) =
    ((dequeue q).1).map fun e => e.insertId) ∧
  (∀ branch now, q.Pairwise (fun a b => a.insertId < b.insertId) →
    (enqueue q branch now).Pairwise fun a b => a.insertId < b.insertId)

/-! General list helpers shared by several proofs. -/

theorem flatten_map_singleton {α β : Type} (l : List α) (f : α → β) :
    (l.map fun x => [f x]).flatten = l.map f := by
  induction l with
  | nil => rfl
  | cons x xs ih => simp [ih]

theorem flatten_map_ite {α β : Type} (l : List α) (p : α → Bool) (f : α → β) :
    (l.map fun x => if p x then [f x] else []).flatten = (l.filter p).map f := by
  induction l with
  | nil => rfl
  | cons x xs ih => cases hp : p x <;> simp [List.filter_cons, hp, ih]

/-! C2 — liveness rule is evaluated first. -/

/-- C2: for every session and probe result, if `is_alive` is false the health
evaluator returns status zombie with suggested action terminate, regardless
of the recorded state (including completed), the last-activity timestamp and
the escalation level, because the liveness rule is evaluated first. -/
theorem evaluateHealth_dead_is_zombie (session : Health.HealthSession)
    (now stallThreshold : Nat) :
    Health.evaluateHealth session false now stallThreshold =
      { status := Health.HealthStatus.zombie,
        suggestedAction := Health.SuggestedAction.terminate } := rfl

/-! C1 — process-tree kill order. -/

/-- C1 (amended): `killProcessTree` with at least one descendant SIGTERMs all
descendants deepest-first, then the root, sleeps the grace period (default
2000 ms) and SIGKILLs the survivors including the root; with no descendants
it sends a single SIGTERM to the root and returns without waiting or
SIGKILLing. -/
theorem killProcessTree_term_then_kill (children : Nat → List Nat)
    (alive : Nat → Bool) (fuel rootPid grace : Nat) :
    KillTreeSpecProp children alive fuel rootPid grace := by
  refine ⟨?_, ?_, ?_, rfl⟩
  · intro h
    simp [Zellij.killProcessTree, h, Zellij.sendSignal]
  · intro h
    have hlen : ¬ (Zellij.getDescendantPids children fuel rootPid).length = 0 := by
      simpa [List.length_eq_zero] using h
    simp only [Zellij.killProcessTree, if_neg hlen, Zellij.sendSignal]
    rw [flatten_map_singleton, flatten_map_ite]
    simp [List.append_assoc]
  · intro f p
    refine ⟨((children p).map (Zellij.getDescendantPids children f)).flatten, rfl, ?_⟩
    intro c hc d hd
    exact List.mem_flatten.mpr ⟨_, List.mem_map_of_mem _ hc, hd⟩

/-- C1 counterexample: when the root has no descendants, the trace is a lone
SIGTERM to the root — there is no grace sleep and no SIGKILL even though the
root is still alive after the grace period. -/
theorem killProcessTree_no_descendants_counterexample :
    Zellij.killProcessTree (fun _ => []) (fun _ => true) 3 7 2000 =
      [Zellij.KillAction.signal 7 Zellij.Signal.SIGTERM] ∧
    Zellij.KillAction.signal 7 Zellij.Signal.SIGKILL ∉
      Zellij.killProcessTree (fun _ => []) (fun _ => true) 3 7 2000 ∧
    Zellij.KillAction.sleep 2000 ∉
      Zellij.killProcessTree (fun _ => []) (fun _ => true) 3 7 2000 := by
  refine ⟨rfl, ?_, ?_⟩ <;> decide

/-- C1 witness: a root with one live descendant produces the full
TERM-TERM-sleep-KILL-KILL trace. -/
theorem killProcessTree_term_then_kill_witness :
    Zellij.killProcessTree (fun p => if p = 1 then [2] else []) (fun _ => true)
        3 1 2000 =
      [Zellij.KillAction.signal 2 Zellij.Signal.SIGTERM,
       Zellij.KillAction.signal 1 Zellij.Signal.SIGTERM,
       Zellij.KillAction.sleep 2000,
       Zellij.KillAction.signal 2 Zellij.Signal.SIGKILL,
       Zellij.KillAction.signal 1 Zellij.Signal.SIGKILL] := by
  rw [(killProcessTree_term_then_kill (fun p => if p = 1 then [2] else [])
    (fun _ => true) 3 1 2000).2.1 (by decide)]
  decide

/-! C9 — sendKeys liveness guard, newline flattening and Enter write. -/

/-- C9: `sendKeys` throws an `AgentError` without issuing any write when the
pane is not alive; when it is alive it writes the text with every newline
replaced by a space (all other characters unchanged), skips the character
write exactly when the flattened text is empty, and issues a separate write
of the Enter byte 13 afterwards. -/
theorem sendKeys_requires_live_pane_and_flattens (writeCharsOk enterOk : Bool)
    (keys : String) : SendKeysSpecProp writeCharsOk enterOk keys := by
  refine ⟨rfl, ?_, ?_, ?_, ?_, ?_⟩
  · simp [Zellij.flattenNewlines]
  · intro i
    simp [Zellij.flattenNewlines, List.getElem?_map]
  · intro c hc
    simp [Zellij.flattenNewlines] at hc
    obtain ⟨a, -, rfl⟩ := hc
    split
    · decide
    · assumption
  · intro h
    cases enterOk <;> simp [Zellij.sendKeys, h]
  · intro h hw
    subst hw
    cases enterOk <;> simp [Zellij.sendKeys, h, Nat.pos_iff_ne_zero]

/-- C9 witness: a dead pane writes nothing; a live pane flattens the newline
in the text and appends the Enter write. -/
theorem sendKeys_requires_live_pane_witness :
    Zellij.sendKeys false true true "hi" =
      (some Zellij.SendError.paneNotAlive, []) ∧
    (Zellij.sendKeys true true true "a\nb").2 =
      [Zellij.SendAction.writeChars "a b", Zellij.SendAction.write 13] := by
  constructor
  · exact (sendKeys_requires_live_pane_and_flattens true true "hi").1
  · rw [(sendKeys_requires_live_pane_and_flattens true true "a\nb").2.2.2.2.2
      (by decide) rfl]
    decide

/-! C10 — frontmatter parser guards and the never-set tags field. -/

theorem processLine_tags (fm : Manifest.UserAgentFrontmatter) (line : List Char) :
    (Manifest.processLine fm line).tags = fm.tags := by
  cases hc : Manifest.findSub [':'] line with
  | none => simp [Manifest.processLine, hc]
  | some colonIdx =>
    simp only [Manifest.processLine, hc]
    split_ifs <;> rfl

theorem foldl_processLine_tags (lines : List (List Char))
    (fm : Manifest.UserAgentFrontmatter) :
    (lines.foldl Manifest.processLine fm).tags = fm.tags := by
  induction lines generalizing fm with
  | nil => rfl
  | cons l ls ih => rw [List.foldl_cons, ih, processLine_tags]

/-- C10: whenever the content (after stripping leading whitespace) does not
begin with `---`, or no second `---` delimiter exists, the parser returns
empty frontmatter and the original content unchanged as body; and for every
input the returned frontmatter's `tags` field is never set, because the key
dispatch handles only `name`, `model`, `color` and `description`. -/
theorem parseAgentFrontmatter_guards_and_no_tags (content : String) :
    FrontmatterSpecProp content := by
  refine ⟨?_, ?_, ?_⟩
  · intro h
    simp [Manifest.parseAgentFrontmatter, h]
  · intro h
    by_cases hp : Manifest.isPrefixL ("---".data)
        (Manifest.trimStartL content.data) = true
    · simp [Manifest.parseAgentFrontmatter, hp, h]
    · simp [Manifest.parseAgentFrontmatter, hp]
  · by_cases hp : Manifest.isPrefixL ("---".data)
        (Manifest.trimStartL content.data) = true
    · cases h2 : Manifest.findSub ("---".data)
          ((Manifest.trimStartL content.data).drop 3) with
      | none =>
        simp [Manifest.parseAgentFrontmatter, hp, h2, Manifest.emptyFrontmatter]
      | some endIdx =>
        simp [Manifest.parseAgentFrontmatter, hp, h2, foldl_processLine_tags,
          Manifest.emptyFrontmatter]
    · simp [Manifest.parseAgentFrontmatter, hp, Manifest.emptyFrontmatter]

/-- C10 witness: content without an opening delimiter is returned unchanged
with empty frontmatter, and a frontmatter block containing a `tags` line
still produces no tags. -/
theorem parseAgentFrontmatter_guards_witness :
    Manifest.parseAgentFrontmatter "plain body" =
      (Manifest.emptyFrontmatter, "plain body") ∧
    (Manifest.parseAgentFrontmatter "---\nname: bob\ntags: x\n---\nbody").1.tags =
      none := by
  constructor
  · exact (parseAgentFrontmatter_guards_and_no_tags "plain body").1 (by decide)
  · exact (parseAgentFrontmatter_guards_and_no_tags
      "---\nname: bob\ntags: x\n---\nbody").2.2

/-! C3 — tool-end correlation. -/

theorem pickLater_some_eq (b e : Events.StoredEvent) :
    Events.pickLater (some b) e = if b.id < e.id then some e else some b := rfl

theorem pickLater_none_eq (e : Events.StoredEvent) :
    Events.pickLater none e = some e := rfl

theorem correlateToolEnd_fst_eq_none (s : List Events.StoredEvent)
    (a t : String) (n : Nat) (h : Events.bestCandidate s a t = none) :
    (Events.correlateToolEnd s a t n).1 = none := by
  unfold Events.correlateToolEnd
  rw [h]

theorem foldl_pickLater_some (l : List Events.StoredEvent) (b : Events.StoredEvent) :
    ∃ r, l.foldl Events.pickLater (some b) = some r ∧ (r = b ∨ r ∈ l) ∧
      b.id ≤ r.id ∧ ∀ e ∈ l, e.id ≤ r.id := by
  induction l generalizing b with
  | nil => exact ⟨b, rfl, Or.inl rfl, le_refl _, by simp⟩
  | cons x xs ih =>
    rw [List.foldl_cons, pickLater_some_eq]
    by_cases hbx : b.id < x.id
    · rw [if_pos hbx]
      obtain ⟨r, hr, hmem, hle, hall⟩ := ih x
      refine ⟨r, hr, ?_, le_trans (le_of_lt hbx) hle, ?_⟩
      · rcases hmem with h | h
        · exact Or.inr (h ▸ List.mem_cons_self x xs)
        · exact Or.inr (List.mem_cons_of_mem _ h)
      · intro e he
        rcases List.mem_cons.mp he with rfl | he2
        · exact hle
        · exact hall e he2
    · rw [if_neg hbx]
      obtain ⟨r, hr, hmem, hle, hall⟩ := ih b
      refine ⟨r, hr, ?_, hle, ?_⟩
      · rcases hmem with h | h
        · exact Or.inl h
        · exact Or.inr (List.mem_cons_of_mem _ h)
      · intro e he
        rcases List.mem_cons.mp he with rfl | he2
        · exact le_trans (Nat.le_of_not_lt hbx) hle
        · exact hall e he2

theorem bestCandidate_none_iff (events : List Events.StoredEvent) (a t : String) :
    Events.bestCandidate events a t = none ↔
      ∀ e ∈ events, Events.isCandidate a t e = false := by
  unfold Events.bestCandidate
  cases hf : events.filter (Events.isCandidate a t) with
  | nil =>
    simp only [List.foldl_nil]
    constructor
    · intro _ e he
      by_contra hc
      have hmem : e ∈ events.filter (Events.isCandidate a t) :=
        List.mem_filter.mpr ⟨he, by simpa using hc⟩
      simp [hf] at hmem
    · intro _
      trivial
  | cons x xs =>
    constructor
    · intro hnone
      rw [List.foldl_cons, pickLater_none_eq] at hnone
      obtain ⟨r, hr, -⟩ := foldl_pickLater_some xs x
      rw [hr] at hnone
      exact Option.noConfusion hnone
    · intro hall
      have hx : x ∈ events.filter (Events.isCandidate a t) := by
        rw [hf]
        exact List.mem_cons_self x xs
      have hfil := List.mem_filter.mp hx
      rw [hall x hfil.1] at hfil
      exact absurd hfil.2 (by simp)

theorem bestCandidate_some_spec (events : List Events.StoredEvent) (a t : String)
    (row : Events.StoredEvent) (h : Events.bestCandidate events a t = some row) :
    row ∈ events ∧ Events.isCandidate a t row = true ∧
      ∀ e ∈ events, Events.isCandidate a t e = true → e.id ≤ row.id := by
  unfold Events.bestCandidate at h
  cases hf : events.filter (Events.isCandidate a t) with
  | nil =>
    rw [hf] at h
    exact Option.noConfusion h
  | cons x xs =>
    rw [hf, List.foldl_cons, pickLater_none_eq] at h
    obtain ⟨r, hr, hmem, hle, hall⟩ := foldl_pickLater_some xs x
    rw [hr] at h
    injection h with h
    subst h
    have hrin : r ∈ events.filter (Events.isCandidate a t) := by
      rw [hf]
      rcases hmem with rfl | hm
      · exact List.mem_cons_self r xs
      · exact List.mem_cons_of_mem _ hm
    have hfil := List.mem_filter.mp hrin
    refine ⟨hfil.1, hfil.2, ?_⟩
    intro e he hc
    have hein : e ∈ events.filter (Events.isCandidate a t) :=
      List.mem_filter.mpr ⟨he, hc⟩
    rw [hf] at hein
    rcases List.mem_cons.mp hein with rfl | hm2
    · exact hle
    · exact hall e hm2

theorem isCandidate_of_some_duration (a t : String) (e : Events.StoredEvent)
    (d : Int) :
    Events.isCandidate a t { e with toolDurationMs := some d } = false := by
  simp [Events.isCandidate]

/-- C3 (as amended): `correlate_tool_end` returns none on an empty candidate
set; otherwise it picks the candidate with the largest id, back-fills exactly
that row's duration with `now − createdAt` (which is ≥ 0 whenever the row is
not from the future), returns the pair, and a second call returns none
provided the consumed row was the only candidate. -/
theorem correlateToolEnd_most_recent (events : List Events.StoredEvent)
    (a t : String) (now : Nat) : CorrelateSpecProp events a t now := by
  refine ⟨?_, ?_, ?_⟩
  · intro hall
    have hbc : Events.bestCandidate events a t = none :=
      (bestCandidate_none_iff events a t).mpr hall
    simp [Events.correlateToolEnd, hbc]
  · intro row hrow
    obtain ⟨hmem, hcand, hmax⟩ := bestCandidate_some_spec events a t row hrow
    refine ⟨hmem, hcand, hmax, ?_, ?_, ?_⟩
    · simp [Events.correlateToolEnd, hrow]
    · simp [Events.correlateToolEnd, hrow]
    · intro h
      have : (row.createdAt : Int) ≤ (now : Int) := by exact_mod_cast h
      omega
  · intro id dur hres hunique now2
    cases hbc : Events.bestCandidate events a t with
    | none =>
      rw [show (Events.correlateToolEnd events a t now).1 = none by
        simp [Events.correlateToolEnd, hbc]] at hres
      exact Option.noConfusion hres
    | some row =>
      have hfst : (Events.correlateToolEnd events a t now).1 =
          some (row.id, (now : Int) - (row.createdAt : Int)) := by
        simp [Events.correlateToolEnd, hbc]
      rw [hfst] at hres
      injection hres with hres
      have hid : row.id = id := congrArg Prod.fst hres
      have hupd : (Events.correlateToolEnd events a t now).2 = events.map (fun e =>
          if e.id = row.id then
            { e with toolDurationMs := some ((now : Int) - (row.createdAt : Int)) }
          else e) := by
        simp [Events.correlateToolEnd, hbc]
      have hnocand : ∀ e2 ∈ (Events.correlateToolEnd events a t now).2,
          Events.isCandidate a t e2 = false := by
        rw [hupd]
        intro e2 he2
        obtain ⟨e, he, rfl⟩ := List.mem_map.mp he2
        by_cases heid : e.id = row.id
        · rw [if_pos heid]
          exact isCandidate_of_some_duration a t e _
        · rw [if_neg heid]
          cases hce : Events.isCandidate a t e with
          | false => rfl
          | true => exact absurd (hid ▸ hunique e he hce) heid
      have hbc2 : Events.bestCandidate (Events.correlateToolEnd events a t now).2
          a t = none := (bestCandidate_none_iff _ a t).mpr hnocand
      exact correlateToolEnd_fst_eq_none _ a t now2 hbc2

/-- C3 counterexample: with two uncorrelated `tool_start` rows for the same
agent and tool, the first call correlates the most recent row and a second
call immediately afterwards correlates the older row instead of returning
none. -/
theorem correlateToolEnd_second_call_counterexample :
    (Events.correlateToolEnd
      [{ id := 1, agentName := "a", eventKind := .toolStart,
         toolName := some "Read", toolDurationMs := none, createdAt := 0 },
       { id := 2, agentName := "a", eventKind := .toolStart,
         toolName := some "Read", toolDurationMs := none, createdAt := 40 }]
      "a" "Read" 100).1 = some (2, 60) ∧
    (Events.correlateToolEnd
      (Events.correlateToolEnd
        [{ id := 1, agentName := "a", eventKind := .toolStart,
           toolName := some "Read", toolDurationMs := none, createdAt := 0 },
         { id := 2, agentName := "a", eventKind := .toolStart,
           toolName := some "Read", toolDurationMs := none, createdAt := 40 }]
        "a" "Read" 100).2 "a" "Read" 100).1 = some (1, 100) := by
  exact ⟨by decide, by decide⟩

/-- C3 witness: a single uncorrelated start row is correlated with a
non-negative duration and the follow-up call returns none. -/
theorem correlateToolEnd_most_recent_witness :
    (Events.correlateToolEnd
      [{ id := 1, agentName := "a", eventKind := .toolStart,
         toolName := some "Read", toolDurationMs := none, createdAt := 25 }]
      "a" "Read" 100).1 = some (1, 75) ∧
    (Events.correlateToolEnd
      (Events.correlateToolEnd
        [{ id := 1, agentName := "a", eventKind := .toolStart,
           toolName := some "Read", toolDurationMs := none, createdAt := 25 }]
        "a" "Read" 100).2 "a" "Read" 110).1 = none := by
  constructor
  · have h := (correlateToolEnd_most_recent
      [{ id := 1, agentName := "a", eventKind := .toolStart,
         toolName := some "Read", toolDurationMs := none, createdAt := 25 }]
      "a" "Read" 100).2.1
      { id := 1, agentName := "a", eventKind := .toolStart,
        toolName := some "Read", toolDurationMs := none, createdAt := 25 }
      (by decide)
    exact h.2.2.2.1
  · exact (correlateToolEnd_most_recent
      [{ id := 1, agentName := "a", eventKind := .toolStart,
         toolName := some "Read", toolDurationMs := none, createdAt := 25 }]
      "a" "Read" 100).2.2 1 75 (by decide) (by decide) 110

/-! C4 — group send fan-out. -/

theorem insertRows_length (rs : List String) (nextId now : Nat)
    (sender subject body : String) (threadId : Option Nat) :
    (Mail.insertRows nextId now sender subject body threadId rs).length =
      rs.length := by
  induction rs generalizing nextId with
  | nil => rfl
  | cons r rest ih => simp [Mail.insertRows, ih]

theorem insertRows_fields (rs : List String) (nextId now : Nat)
    (sender subject body : String) (threadId : Option Nat) :
    ∀ m ∈ Mail.insertRows nextId now sender subject body threadId rs,
      m.body = body ∧ m.subject = subject ∧ m.threadId = threadId ∧
        m.sender = sender := by
  induction rs generalizing nextId with
  | nil => simp [Mail.insertRows]
  | cons r rest ih =>
    intro m hm
    rcases List.mem_cons.mp hm with rfl | hm2
    · exact ⟨rfl, rfl, rfl, rfl⟩
    · exact ih (nextId + 1) m hm2

theorem insertRows_recipients (rs : List String) (nextId now : Nat)
    (sender subject body : String) (threadId : Option Nat) :
    (Mail.insertRows nextId now sender subject body threadId rs).map
      (fun m => m.recipient) = rs := by
  induction rs generalizing nextId with
  | nil => rfl
  | cons r rest ih => simp [Mail.insertRows, ih]

theorem insertRows_id_ge (rs : List String) (nextId now : Nat)
    (sender subject body : String) (threadId : Option Nat) :
    ∀ m ∈ Mail.insertRows nextId now sender subject body threadId rs,
      nextId ≤ m.id := by
  induction rs generalizing nextId with
  | nil => simp [Mail.insertRows]
  | cons r rest ih =>
    intro m hm
    rcases List.mem_cons.mp hm with rfl | hm2
    · exact le_refl _
    · exact le_trans (Nat.le_succ nextId) (ih (nextId + 1) m hm2)

theorem insertRows_ids_nodup (rs : List String) (nextId now : Nat)
    (sender subject body : String) (threadId : Option Nat) :
    ((Mail.insertRows nextId now sender subject body threadId rs).map
      (fun m => m.id)).Nodup := by
  induction rs generalizing nextId with
  | nil => simp [Mail.insertRows]
  | cons r rest ih =>
    rw [Mail.insertRows, List.map_cons, List.nodup_cons]
    refine ⟨?_, ih (nextId + 1)⟩
    show nextId ∉ (Mail.insertRows (nextId + 1) now sender subject body
      threadId rest).map fun m => m.id
    intro hmem
    obtain ⟨m, hm, hid⟩ := List.mem_map.mp hmem
    have := insertRows_id_ge rest (nextId + 1) now sender subject body threadId m hm
    omega

/-- C4: group sends resolve recipients before insertion (`@all` to every
active non-sender name, capability groups to the matching active agents with
the sender excluded), append exactly one row per recipient with identical
body, subject and thread id and pairwise-distinct ids, and an empty
resolution inserts nothing and returns the empty id list. -/
theorem sendGroup_fans_out (store : List Mail.MailMessage) (nextId : Nat)
    (sender group subject body : String) (threadId : Option Nat)
    (active : List Mail.ActiveAgent) (now : Nat) :
    GroupSendSpecProp store nextId sender group subject body threadId active now := by
  refine ⟨by simp [Mail.resolveGroupAddress], ?_, ?_, rfl, ?_, ?_, ?_, ?_⟩
  · intro g cap hg
    by_cases hall : g = "@all"
    · subst hall
      rw [show Mail.capabilityOfGroup "@all" = none from by decide] at hg
      exact Option.noConfusion hg
    · simp [Mail.resolveGroupAddress, hall, hg]
  · simp [Mail.sendGroup, insertRows_length]
  · exact insertRows_fields _ _ _ _ _ _ _
  · exact insertRows_recipients _ _ _ _ _ _ _
  · exact insertRows_ids_nodup _ _ _ _ _ _ _
  · intro h
    constructor <;> simp [Mail.sendGroup, h, Mail.insertRows]

/-- C4 witness: with active agents alice (builder), bob (builder) and carol
(scout) and sender alice, `@builders` resolves to bob alone and the send
inserts exactly one row. -/
theorem sendGroup_fans_out_witness :
    Mail.resolveGroupAddress "@builders"
      [⟨"alice", Capability.builder⟩, ⟨"bob", Capability.builder⟩,
       ⟨"carol", Capability.scout⟩] "alice" = ["bob"] ∧
    (Mail.sendGroup [] 10 "alice" "@builders" "s" "hi" none
      [⟨"alice", Capability.builder⟩, ⟨"bob", Capability.builder⟩,
       ⟨"carol", Capability.scout⟩] 0).1 = [10] := by
  have h := sendGroup_fans_out [] 10 "alice" "@builders" "s" "hi" none
    [⟨"alice", Capability.builder⟩, ⟨"bob", Capability.builder⟩,
     ⟨"carol", Capability.scout⟩] 0
  constructor
  · rw [h.2.1 "@builders" Capability.builder (by decide)]
    decide
  · decide

/-! C7 — reply threading and recipient selection. -/

/-- C7: a reply to message `m` creates a message whose thread id is `m`'s
thread id when non-null and `m`'s own id otherwise, and whose recipient is
`m`'s sender. -/
theorem reply_inherits_thread (store : List Mail.MailMessage)
    (nextId messageId : Nat) (body sender : String) (now : Nat)
    (m : Mail.MailMessage) (h : Mail.getById store messageId = some m) :
    Mail.reply store nextId messageId body sender now =
      some (nextId, store ++
        [{ id := nextId, sender := sender, recipient := m.sender,
           subject := m.subject, body := body,
           threadId := some (m.threadId.getD m.id), read := false,
           createdAt := now }]) := by
  unfold Mail.reply
  rw [h]
  cases hm : m.threadId <;> simp [hm]

/-- C7 witness: replying to a thread-root message inherits the original's id
as thread id and addresses the reply to the original sender. -/
theorem reply_inherits_thread_witness :
    Mail.reply
      [{ id := 5, sender := "alice", recipient := "bob", subject := "s",
         body := "orig", threadId := none, read := false, createdAt := 0 }]
      9 5 "re" "bob" 7 =
      some (9,
        [{ id := 5, sender := "alice", recipient := "bob", subject := "s",
           body := "orig", threadId := none, read := false, createdAt := 0 },
         { id := 9, sender := "bob", recipient := "alice", subject := "s",
           body := "re", threadId := some 5, read := false, createdAt := 7 }]) := by
  rw [reply_inherits_thread
    [{ id := 5, sender := "alice", recipient := "bob", subject := "s",
       body := "orig", threadId := none, read := false, createdAt := 0 }]
    9 5 "re" "bob" 7
    { id := 5, sender := "alice", recipient := "bob", subject := "s",
      body := "orig", threadId := none, read := false, createdAt := 0 }
    (by decide)]
  decide

/-! C5 and C8 — session-store transitions and escalation. -/

theorem find?_map_pred_invariant {α : Type} (p : α → Bool) (g : α → α)
    (hg : ∀ x, p (g x) = p x) (l : List α) :
    (l.map g).find? p = (l.find? p).map g := by
  induction l with
  | nil => rfl
  | cons x xs ih =>
    cases hx : p x with
    | true =>
      rw [List.map_cons, List.find?_cons_of_pos _ (by rw [hg] ; exact hx),
        List.find?_cons_of_pos _ hx]
      rfl
    | false =>
      rw [List.map_cons, List.find?_cons_of_neg _ (by rw [hg] ; simp [hx]),
        List.find?_cons_of_neg _ (by simp [hx]), ih]

theorem lookupSession_map_if (store : List Sessions.AgentSession) (name : String)
    (f : Sessions.AgentSession → Sessions.AgentSession)
    (hf : ∀ r, (f r).agentName = r.agentName) :
    Sessions.lookupSession
        (store.map fun r => if r.agentName = name then f r else r) name =
      (Sessions.lookupSession store name).map
        fun r => if r.agentName = name then f r else r := by
  unfold Sessions.lookupSession
  apply find?_map_pred_invariant
  intro x
  by_cases hx : x.agentName = name <;> simp [hx, hf]

theorem lookupSession_name (store : List Sessions.AgentSession) (name : String)
    (s : Sessions.AgentSession) (h : Sessions.lookupSession store name = some s) :
    s.agentName = name := by
  have := List.find?_some h
  simpa using this

/-- C5: the session store accepts exactly the forward-only transitions
`booting → working`, `working → {completed, stalled}`,
`stalled → {working, zombie}` (`completed` and `zombie` are terminal); a
legal transition updates the stored state and an illegal one is rejected
with a typed error while the stored state is unchanged. -/
theorem updateState_forward_only (store : List Sessions.AgentSession)
    (name : String) (newState : AgentState) :
    UpdateStateSpecProp store name newState := by
  refine ⟨?_, ?_, ?_⟩
  · intro a b
    cases a <;> cases b <;> simp [Sessions.transitionAllowed]
  · intro b
    cases b <;> simp [Sessions.transitionAllowed]
  intro s hs
  constructor
  · intro hbad
    simp [Sessions.updateState, hs, hbad]
  · intro hok
    constructor
    · simp [Sessions.updateState, hs, hok]
    · have h2 : (Sessions.updateState store name newState).2 =
          store.map fun r =>
            if r.agentName = name then { r with state := newState } else r := by
        simp [Sessions.updateState, hs, hok]
      rw [h2, lookupSession_map_if store name
        (fun r => { r with state := newState }) (fun r => rfl), hs]
      simp [lookupSession_name store name s hs]

/-- C5 witness: a stored `working` session accepts the transition to
`stalled` and rejects the transition back to `booting` with a typed error. -/
theorem updateState_forward_only_witness :
    (Sessions.updateState
      [{ agentName := "a", state := AgentState.working, escalationLevel := 0,
         stalledSince := none }] "a" AgentState.booting) =
      (some (Sessions.SessionError.illegalTransition AgentState.working
        AgentState.booting),
       [{ agentName := "a", state := AgentState.working, escalationLevel := 0,
          stalledSince := none }]) ∧
    Sessions.lookupSession
      (Sessions.updateState
        [{ agentName := "a", state := AgentState.working, escalationLevel := 0,
           stalledSince := none }] "a" AgentState.stalled).2 "a" =
      some { agentName := "a", state := AgentState.stalled,
             escalationLevel := 0, stalledSince := none } := by
  constructor
  · exact ((updateState_forward_only
      [{ agentName := "a", state := AgentState.working, escalationLevel := 0,
         stalledSince := none }] "a" AgentState.booting).2.2
      { agentName := "a", state := AgentState.working, escalationLevel := 0,
        stalledSince := none } (by decide)).1 (by decide)
  · exact ((updateState_forward_only
      [{ agentName := "a", state := AgentState.working, escalationLevel := 0,
         stalledSince := none }] "a" AgentState.stalled).2.2
      { agentName := "a", state := AgentState.working, escalationLevel := 0,
        stalledSince := none } (by decide)).2 (by decide) |>.2

/-- C8 counterexample: `upsert` writes `escalation_level` as given, so a
store operation can lower the stored level of a non-terminal (`working`)
session from 2 to 0. -/
theorem upsert_decreases_escalation_counterexample :
    (Sessions.lookupSession
      [{ agentName := "a", state := AgentState.working, escalationLevel := 2,
         stalledSince := none }] "a").map (fun s => s.escalationLevel) =
      some 2 ∧
    (Sessions.lookupSession
      (Sessions.applyOp
        (Sessions.SessionOp.upsertOp
          { agentName := "a", state := AgentState.working, escalationLevel := 0,
            stalledSince := none })
        [{ agentName := "a", state := AgentState.working, escalationLevel := 2,
           stalledSince := none }]) "a").map (fun s => s.escalationLevel) =
      some 0 ∧
    (Sessions.lookupSession
      (Sessions.applyOp
        (Sessions.SessionOp.upsertOp
          { agentName := "a", state := AgentState.working, escalationLevel := 0,
            stalledSince := none })
        [{ agentName := "a", state := AgentState.working, escalationLevel := 2,
           stalledSince := none }]) "a").map (fun s => s.state) =
      some AgentState.working := by
  refine ⟨by decide, by decide, by decide⟩

/-- C8 (as amended): `update_escalation` rejects a level below the stored one
with a typed error and an unchanged store, and the level it stores never
decreases; monotonicity across `upsert` is enforced by the caller, not the
store. -/
theorem updateEscalation_never_decreases (store : List Sessions.AgentSession)
    (name : String) (level : Nat) (stalledSince : Option Nat) :
    EscalationMonotoneProp store name level stalledSince := by
  constructor
  · intro s hs hlt
    simp [Sessions.updateEscalation, hs, hlt]
  · intro s sAfter hs hafter
    by_cases hlt : level < s.escalationLevel
    · have hsame : (Sessions.updateEscalation store name level stalledSince).2 =
          store := by
        simp [Sessions.updateEscalation, hs, hlt]
      rw [hsame, hs] at hafter
      injection hafter with hafter
      subst hafter
      exact le_refl _
    · have h2 : (Sessions.updateEscalation store name level stalledSince).2 =
          store.map fun r =>
            if r.agentName = name then
              { r with escalationLevel := level, stalledSince := stalledSince }
            else r := by
        simp [Sessions.updateEscalation, hs, hlt]
      rw [h2, lookupSession_map_if store name
        (fun r => { r with escalationLevel := level, stalledSince := stalledSince })
        (fun r => rfl), hs] at hafter
      simp [lookupSession_name store name s hs] at hafter
      rw [← hafter]
      exact Nat.le_of_not_lt hlt

/-- C8 witness: a request to lower the level from 2 to 1 is rejected with a
typed error, and raising it from 2 to 3 stores the higher level. -/
theorem updateEscalation_never_decreases_witness :
    Sessions.updateEscalation
      [{ agentName := "a", state := AgentState.stalled, escalationLevel := 2,
         stalledSince := some 5 }] "a" 1 (some 5) =
      (some (Sessions.SessionError.escalationDecrease 2 1),
       [{ agentName := "a", state := AgentState.stalled, escalationLevel := 2,
          stalledSince := some 5 }]) ∧
    (2 : Nat) ≤ 3 := by
  constructor
  · exact (updateEscalation_never_decreases
      [{ agentName := "a", state := AgentState.stalled, escalationLevel := 2,
         stalledSince := some 5 }] "a" 1 (some 5)).1
      { agentName := "a", state := AgentState.stalled, escalationLevel := 2,
        stalledSince := some 5 } (by decide) (by decide)
  · exact (updateEscalation_never_decreases
      [{ agentName := "a", state := AgentState.stalled, escalationLevel := 2,
         stalledSince := some 5 }] "a" 3 (some 5)).2
      { agentName := "a", state := AgentState.stalled, escalationLevel := 2,
        stalledSince := some 5 }
      { agentName := "a", state := AgentState.stalled, escalationLevel := 3,
        stalledSince := some 5 } (by decide) (by decide)

/-! C6 — merge-queue FIFO order. -/

theorem pickEarlier_some_eq (b e : MergeQ.MergeEntry) :
    MergeQ.pickEarlier (some b) e =
      if e.insertId < b.insertId then some e else some b := rfl

theorem pickEarlier_none_eq (e : MergeQ.MergeEntry) :
    MergeQ.pickEarlier none e = some e := rfl

theorem foldl_pickEarlier_some (l : List MergeQ.MergeEntry) (b : MergeQ.MergeEntry) :
    ∃ r, l.foldl MergeQ.pickEarlier (some b) = some r ∧ (r = b ∨ r ∈ l) ∧
      r.insertId ≤ b.insertId ∧ ∀ e ∈ l, r.insertId ≤ e.insertId := by
  induction l generalizing b with
  | nil => exact ⟨b, rfl, Or.inl rfl, le_refl _, by simp⟩
  | cons x xs ih =>
    rw [List.foldl_cons, pickEarlier_some_eq]
    by_cases hxb : x.insertId < b.insertId
    · rw [if_pos hxb]
      obtain ⟨r, hr, hmem, hle, hall⟩ := ih x
      refine ⟨r, hr, ?_, le_trans hle (le_of_lt hxb), ?_⟩
      · rcases hmem with h | h
        · exact Or.inr (h ▸ List.mem_cons_self x xs)
        · exact Or.inr (List.mem_cons_of_mem _ h)
      · intro e he
        rcases List.mem_cons.mp he with rfl | he2
        · exact hle
        · exact hall e he2
    · rw [if_neg hxb]
      obtain ⟨r, hr, hmem, hle, hall⟩ := ih b
      refine ⟨r, hr, ?_, hle, ?_⟩
      · rcases hmem with h | h
        · exact Or.inl h
        · exact Or.inr (List.mem_cons_of_mem _ h)
      · intro e he
        rcases List.mem_cons.mp he with rfl | he2
        · exact le_trans hle (Nat.le_of_not_lt hxb)
        · exact hall e he2

theorem foldl_pickEarlier_keep (l : List MergeQ.MergeEntry)
    (b : MergeQ.MergeEntry) (h : ∀ e ∈ l, ¬ e.insertId < b.insertId) :
    l.foldl MergeQ.pickEarlier (some b) = some b := by
  induction l with
  | nil => rfl
  | cons x xs ih =>
    rw [List.foldl_cons, pickEarlier_some_eq,
      if_neg (h x (List.mem_cons_self x xs))]
    exact ih fun e he => h e (List.mem_cons_of_mem _ he)

theorem minPending_none_iff (q : List MergeQ.MergeEntry) :
    MergeQ.minPending q = none ↔
      ∀ r ∈ q, ¬ r.status = MergeQ.MergeStatus.pending := by
  unfold MergeQ.minPending
  cases hf : q.filter fun r => decide (r.status = MergeQ.MergeStatus.pending) with
  | nil =>
    simp only [List.foldl_nil]
    constructor
    · intro _ r hr hc
      have hmem : r ∈ q.filter fun r =>
          decide (r.status = MergeQ.MergeStatus.pending) :=
        List.mem_filter.mpr ⟨hr, by simpa using hc⟩
      simp [hf] at hmem
    · intro _
      trivial
  | cons x xs =>
    constructor
    · intro hnone
      rw [List.foldl_cons, pickEarlier_none_eq] at hnone
      obtain ⟨r, hr, -⟩ := foldl_pickEarlier_some xs x
      rw [hr] at hnone
      exact Option.noConfusion hnone
    · intro hall
      have hx : x ∈ q.filter fun r =>
          decide (r.status = MergeQ.MergeStatus.pending) := by
        rw [hf]
        exact List.mem_cons_self x xs
      have hfil := List.mem_filter.mp hx
      exact absurd (by simpa using hfil.2) (hall x hfil.1)

theorem minPending_some_spec (q : List MergeQ.MergeEntry)
    (e : MergeQ.MergeEntry) (h : MergeQ.minPending q = some e) :
    e ∈ q ∧ e.status = MergeQ.MergeStatus.pending ∧
      ∀ r ∈ q, r.status = MergeQ.MergeStatus.pending →
        e.insertId ≤ r.insertId := by
  unfold MergeQ.minPending at h
  cases hf : q.filter fun r => decide (r.status = MergeQ.MergeStatus.pending) with
  | nil =>
    rw [hf] at h
    exact Option.noConfusion h
  | cons x xs =>
    rw [hf, List.foldl_cons, pickEarlier_none_eq] at h
    obtain ⟨r, hr, hmem, hle, hall⟩ := foldl_pickEarlier_some xs x
    rw [hr] at h
    injection h with h
    subst h
    have hrin : r ∈ q.filter fun s =>
        decide (s.status = MergeQ.MergeStatus.pending) := by
      rw [hf]
      rcases hmem with rfl | hm
      · exact List.mem_cons_self r xs
      · exact List.mem_cons_of_mem _ hm
    have hfil := List.mem_filter.mp hrin
    refine ⟨hfil.1, by simpa using hfil.2, ?_⟩
    intro s hs hps
    have hsin : s ∈ q.filter fun s =>
        decide (s.status = MergeQ.MergeStatus.pending) :=
      List.mem_filter.mpr ⟨hs, by simpa using hps⟩
    rw [hf] at hsin
    rcases List.mem_cons.mp hsin with rfl | hm2
    · exact hle
    · exact hall s hm2

theorem minPending_sorted (q : List MergeQ.MergeEntry)
    (hq : q.Pairwise fun a b => a.insertId < b.insertId) :
    MergeQ.minPending q =
      (q.filter fun r => decide (r.status = MergeQ.MergeStatus.pending)).head? := by
  have hpf : (q.filter fun r =>
      decide (r.status = MergeQ.MergeStatus.pending)).Pairwise
      (fun a b => a.insertId < b.insertId) :=
    List.Pairwise.sublist (List.filter_sublist q) hq
  unfold MergeQ.minPending
  cases hf : q.filter fun r => decide (r.status = MergeQ.MergeStatus.pending) with
  | nil => rfl
  | cons x xs =>
    rw [hf] at hpf
    rw [List.foldl_cons, pickEarlier_none_eq]
    have hxall : ∀ e ∈ xs, ¬ e.insertId < x.insertId := by
      intro e he
      have := (List.pairwise_cons.mp hpf).1 e he
      omega
    rw [foldl_pickEarlier_keep xs x hxall]
    rfl

theorem length_filter_lt_of_mem {α : Type} (l : List α) (p : α → Bool) (x : α)
    (hx : x ∈ l) (hp : p x = false) : (l.filter p).length < l.length := by
  induction l with
  | nil => cases hx
  | cons y ys ih =>
    rcases List.mem_cons.mp hx with rfl | hmem
    · rw [List.filter_cons, if_neg (by simp [hp])]
      exact Nat.lt_succ_of_le (List.length_filter_le p ys)
    · rw [List.filter_cons]
      split_ifs with hy
      · simpa using Nat.succ_lt_succ (ih hmem)
      · exact Nat.lt_succ_of_lt (ih hmem)

theorem retime_insertId (f : Nat → Nat) (e : MergeQ.MergeEntry) :
    (MergeQ.retime f e).insertId = e.insertId := rfl

theorem foldl_pickEarlier_map_retime (f : Nat → Nat)
    (l : List MergeQ.MergeEntry) :
    ∀ acc : Option MergeQ.MergeEntry,
      (l.map (MergeQ.retime f)).foldl MergeQ.pickEarlier
          (acc.map (MergeQ.retime f)) =
        (l.foldl MergeQ.pickEarlier acc).map (MergeQ.retime f) := by
  induction l with
  | nil =>
    intro acc
    rfl
  | cons x xs ih =>
    intro acc
    rw [List.map_cons, List.foldl_cons, List.foldl_cons]
    have hstep : MergeQ.pickEarlier (acc.map (MergeQ.retime f))
        (MergeQ.retime f x) =
        (MergeQ.pickEarlier acc x).map (MergeQ.retime f) := by
      cases acc with
      | none => rfl
      | some b =>
        simp only [Option.map_some']
        rw [pickEarlier_some_eq, pickEarlier_some_eq, retime_insertId,
          retime_insertId]
        by_cases h : x.insertId < b.insertId <;> simp [h]
    rw [hstep]
    exact ih (MergeQ.pickEarlier acc x)

theorem minPending_map_retime (f : Nat → Nat) (q : List MergeQ.MergeEntry) :
    MergeQ.minPending (q.map (MergeQ.retime f)) =
      (MergeQ.minPending q).map (MergeQ.retime f) := by
  unfold MergeQ.minPending
  rw [List.filter_map]
  have hpred : ((fun r => decide (r.status = MergeQ.MergeStatus.pending)) ∘
      MergeQ.retime f) = fun r =>
      decide (r.status = MergeQ.MergeStatus.pending) := by
    funext r
    simp [MergeQ.retime]
  rw [hpred]
  exact foldl_pickEarlier_map_retime f _ none

theorem foldl_max_le (l : List Nat) :
    ∀ a : Nat, (∀ x ∈ l, x ≤ l.foldl max a) ∧ a ≤ l.foldl max a := by
  induction l with
  | nil =>
    intro a
    exact ⟨by simp, le_refl a⟩
  | cons y ys ih =>
    intro a
    rw [List.foldl_cons]
    obtain ⟨hall, hacc⟩ := ih (max a y)
    refine ⟨?_, le_trans (le_max_left a y) hacc⟩
    intro x hx
    rcases List.mem_cons.mp hx with rfl | hm
    · exact le_trans (le_max_right a x) hacc
    · exact hall x hm

theorem dequeueAll_sorted :
    ∀ (fuel : Nat) (q : List MergeQ.MergeEntry), q.length ≤ fuel →
      q.Pairwise (fun a b => a.insertId < b.insertId) →
      MergeQ.dequeueAll fuel q =
        q.filter fun r => decide (r.status = MergeQ.MergeStatus.pending) := by
  intro fuel
  induction fuel with
  | zero =>
    intro q hl _
    have hq : q = [] := List.length_eq_zero.mp (Nat.le_zero.mp hl)
    subst hq
    rfl
  | succ n ih =>
    intro q hl hq
    cases hmp : MergeQ.minPending q with
    | none =>
      have hfilt : (q.filter fun r =>
          decide (r.status = MergeQ.MergeStatus.pending)) = [] := by
        rw [List.filter_eq_nil_iff]
        intro r hr
        simpa using (minPending_none_iff q).mp hmp r hr
      rw [hfilt]
      simp [MergeQ.dequeueAll, MergeQ.dequeue, hmp]
    | some e =>
      have hpf : (q.filter fun r =>
          decide (r.status = MergeQ.MergeStatus.pending)).Pairwise
          (fun a b => a.insertId < b.insertId) :=
        List.Pairwise.sublist (List.filter_sublist q) hq
      have hhead := minPending_sorted q hq
      rw [hmp] at hhead
      obtain ⟨t, hft⟩ : ∃ t, (q.filter fun r =>
          decide (r.status = MergeQ.MergeStatus.pending)) = e :: t := by
        cases hf2 : q.filter fun r =>
            decide (r.status = MergeQ.MergeStatus.pending) with
        | nil =>
          rw [hf2] at hhead
          exact Option.noConfusion hhead
        | cons x xs =>
          rw [hf2] at hhead
          injection hhead with hhead
          exact ⟨xs, by rw [hhead]⟩
      obtain ⟨hmem, hpend, -⟩ := minPending_some_spec q e hmp
      have hlen2 : (q.filter fun r =>
          decide (r.insertId ≠ e.insertId)).length ≤ n := by
        have := length_filter_lt_of_mem q
          (fun r => decide (r.insertId ≠ e.insertId)) e hmem (by simp)
        omega
      have hq2 : (q.filter fun r =>
          decide (r.insertId ≠ e.insertId)).Pairwise
          (fun a b => a.insertId < b.insertId) :=
        List.Pairwise.sublist (List.filter_sublist q) hq
      have ihq := ih _ hlen2 hq2
      have htne : ∀ r ∈ t, r.insertId ≠ e.insertId := by
        rw [hft] at hpf
        intro r hr
        have := (List.pairwise_cons.mp hpf).1 r hr
        omega
      have hpt : ((q.filter fun r => decide (r.insertId ≠ e.insertId)).filter
          fun r => decide (r.status = MergeQ.MergeStatus.pending)) = t := by
        rw [List.filter_filter]
        rw [List.filter_congr (fun r _ => by
          rw [Bool.and_comm] :
          ∀ r ∈ q, (decide (r.status = MergeQ.MergeStatus.pending) &&
            decide (r.insertId ≠ e.insertId)) =
            (decide (r.insertId ≠ e.insertId) &&
              decide (r.status = MergeQ.MergeStatus.pending)))]
        rw [← List.filter_filter, hft, List.filter_cons,
          if_neg (by simp)]
        rw [List.filter_eq_self.mpr (fun r hr => by simpa using htne r hr)]
      have hdeq : MergeQ.dequeue q =
          (some e, q.filter fun r => decide (r.insertId ≠ e.insertId)) := by
        simp [MergeQ.dequeue, hmp]
      show MergeQ.dequeueAll (n + 1) q = _
      simp only [MergeQ.dequeueAll, hdeq]
      rw [ihq, hpt, hft]

/-- C6: dequeue removes and returns the pending entry with the smallest
auto-increment insert id (ignoring non-pending entries), so dequeue order
equals insertion order restricted to pending entries and is independent of
the `enqueuedAt` timestamps; enqueue keeps insert ids increasing in
insertion order. -/
theorem dequeue_fifo (q : List MergeQ.MergeEntry) : DequeueFifoProp q := by
  refine ⟨?_, ?_, ?_, ?_, ?_⟩
  · intro e he
    cases hmp : MergeQ.minPending q with
    | none =>
      rw [show (MergeQ.dequeue q).1 = none by simp [MergeQ.dequeue, hmp]] at he
      exact Option.noConfusion he
    | some x =>
      have hd : MergeQ.dequeue q =
          (some x, q.filter fun r => decide (r.insertId ≠ x.insertId)) := by
        simp [MergeQ.dequeue, hmp]
      rw [hd] at he
      have hxe : x = e := by simpa using he
      subst hxe
      obtain ⟨hmem, hpend, hmin⟩ := minPending_some_spec q x hmp
      exact ⟨hmem, hpend, hmin, by rw [hd]⟩
  · intro hnone
    cases hmp : MergeQ.minPending q with
    | some x =>
      rw [show (MergeQ.dequeue q).1 = some x from by
        simp [MergeQ.dequeue, hmp]] at hnone
      exact Option.noConfusion hnone
    | none =>
      exact ⟨(minPending_none_iff q).mp hmp, by simp [MergeQ.dequeue, hmp]⟩
  · intro hq
    exact dequeueAll_sorted q.length q (le_refl _) hq
  · intro f
    cases hmp : MergeQ.minPending q with
    | none =>
      have h2 : MergeQ.minPending (q.map (MergeQ.retime f)) = none := by
        rw [minPending_map_retime, hmp]
        rfl
      simp [MergeQ.dequeue, hmp, h2]
    | some e =>
      have h2 : MergeQ.minPending (q.map (MergeQ.retime f)) =
          some (MergeQ.retime f e) := by
        rw [minPending_map_retime, hmp]
        rfl
      simp [MergeQ.dequeue, hmp, h2, MergeQ.retime]
  · intro branch now hq
    rw [MergeQ.enqueue, List.pairwise_append]
    refine ⟨hq, by simp, ?_⟩
    intro a ha b hb
    simp only [List.mem_singleton] at hb
    subst hb
    show a.insertId < MergeQ.nextInsertId q
    unfold MergeQ.nextInsertId
    have hmem : a.insertId ∈ q.map fun e => e.insertId :=
      List.mem_map_of_mem _ ha
    have := (foldl_max_le (q.map fun e => e.insertId) 0).1 _ hmem
    omega

/-- C6 witness: a queue holding pending ids 1 and 3 around a merged id 2 is
consumed as 1 then 3, the insertion order of the pending entries, even
though id 1 has the latest `enqueuedAt`. -/
theorem dequeue_fifo_witness :
    MergeQ.dequeueAll 3
      [{ insertId := 1, branchName := "b1", enqueuedAt := 90,
         status := MergeQ.MergeStatus.pending },
       { insertId := 2, branchName := "b2", enqueuedAt := 10,
         status := MergeQ.MergeStatus.merged },
       { insertId := 3, branchName := "b3", enqueuedAt := 50,
         status := MergeQ.MergeStatus.pending }] =
      [{ insertId := 1, branchName := "b1", enqueuedAt := 90,
         status := MergeQ.MergeStatus.pending },
       { insertId := 3, branchName := "b3", enqueuedAt := 50,
         status := MergeQ.MergeStatus.pending }] := by
  have h := (dequeue_fifo
    [{ insertId := 1, branchName := "b1", enqueuedAt := 90,
       status := MergeQ.MergeStatus.pending },
     { insertId := 2, branchName := "b2", enqueuedAt := 10,
       status := MergeQ.MergeStatus.merged },
     { insertId := 3, branchName := "b3", enqueuedAt := 50,
       status := MergeQ.MergeStatus.pending }]).2.2.1 (by decide)
  exact h.trans (by decide)

end Overstory
